import Mathlib

/-!
A shallow embedding of the byte-level BPE tokenizer from src/lib.rs.

Modelling conventions:
- Rust u16 values are modelled as Nat.  The addition `256 + i` that creates a
  new token identifier is taken modulo 2 ^ 16 (two's-complement wrapping, the
  semantics of release builds).  The unchecked u16 subtraction
  `vocab_size - vocab_start` is modelled with an explicit Option: `none`
  corresponds to an underflow of the subtraction.
- Rust HashMap iteration order is implementation defined.  The embedding uses
  the first-occurrence order of the pairs in the sequence as the canonical
  iteration order, and exposes the order dependence through functions that
  take the iterated entry list as an argument.
- Operations that can panic (`expect`, `unwrap` on a missing key) return
  Option, with `none` marking the panic.
- The while loop of `encode` need not terminate; it is modelled with fuel.
  A result of `none` means the loop did not finish within the given fuel.
- Rust strings are modelled as lists of Unicode scalar values; `&str.as_bytes`
  is UTF-8 encoding, and `String::from_utf8_lossy` is modelled byte for byte
  after the standard library routine (maximal-subpart replacement).
-/

set_option maxHeartbeats 1600000
set_option maxRecDepth 8192

namespace BPE

/-- Association list lookup, first entry whose key matches.  Models `get` of
both `HashMap` and `LinkedHashMap` in the Rust source. -/
def alGet {α β : Type} [DecidableEq α] : List (α × β) → α → Option β
  | [], _ => none
  | (k, v) :: rest, key => if k = key then some v else alGet rest key

/-- Association list insert with `LinkedHashMap` semantics: an existing key
keeps its position and has its value replaced, a new key is appended. -/
def alInsert {α β : Type} [DecidableEq α] : List (α × β) → α → β → List (α × β)
  | [], k, v => [(k, v)]
  | (k0, v0) :: rest, k, v =>
    if k0 = k then (k, v) :: rest else (k0, v0) :: alInsert rest k v

/-- The merge table: insertion-ordered (pair, identifier) entries. -/
abbrev Merges := List ((Nat × Nat) × Nat)

/-- The vocabulary: insertion-ordered (identifier, byte payload) entries. -/
abbrev Vocab := List (Nat × List Nat)

/-- A Unicode scalar value: below 0x110000 and not a surrogate. -/
def ValidChar (c : Nat) : Prop := c < 0x110000 ∧ (c < 0xD800 ∨ 0xE000 ≤ c)

instance (c : Nat) : Decidable (ValidChar c) := by
  unfold ValidChar; infer_instance

/-- A Rust string: a list of Unicode scalar values. -/
def ValidString (s : List Nat) : Prop := ∀ c ∈ s, ValidChar c

instance (s : List Nat) : Decidable (ValidString s) := by
  unfold ValidString; infer_instance

/-- UTF-8 encoding of one scalar value. -/
def utf8EncodeChar (c : Nat) : List Nat :=
  if c < 0x80 then [c]
  else if c < 0x800 then [0xC0 + c / 0x40, 0x80 + c % 0x40]
  else if c < 0x10000 then
    [0xE0 + c / 0x1000, 0x80 + c / 0x40 % 0x40, 0x80 + c % 0x40]
  else
    [0xF0 + c / 0x40000, 0x80 + c / 0x1000 % 0x40, 0x80 + c / 0x40 % 0x40,
      0x80 + c % 0x40]

/-- UTF-8 encoding of a string, the byte view that `&str.as_bytes` exposes. -/
def utf8Encode (s : List Nat) : List Nat := (s.map utf8EncodeChar).flatten

/-- Is the byte a UTF-8 continuation byte. -/
def isCont (b : Nat) : Bool := 0x80 ≤ b && b ≤ 0xBF

/-- Admissible second byte of a multi-byte UTF-8 sequence headed by b0,
following the range table of the Rust core validation routine. -/
def validSecond (b0 b1 : Nat) : Bool :=
  if b0 = 0xE0 then 0xA0 ≤ b1 && b1 ≤ 0xBF
  else if b0 = 0xED then 0x80 ≤ b1 && b1 ≤ 0x9F
  else if b0 = 0xF0 then 0x90 ≤ b1 && b1 ≤ 0xBF
  else if b0 = 0xF4 then 0x80 ≤ b1 && b1 ≤ 0x8F
  else isCont b1

/-- Model of `String::from_utf8_lossy`: decode the byte list to scalar
values, emitting U+FFFD for each maximal ill-formed subpart exactly as the
Rust standard library does. -/
def utf8Lossy : List Nat → List Nat
  | [] => []
  | b0 :: rest =>
    if b0 < 0x80 then b0 :: utf8Lossy rest
    else if b0 < 0xC2 then 0xFFFD :: utf8Lossy rest
    else if b0 < 0xE0 then
      match rest with
      | [] => [0xFFFD]
      | b1 :: rest1 =>
        if isCont b1 then ((b0 - 0xC0) * 0x40 + (b1 - 0x80)) :: utf8Lossy rest1
        else 0xFFFD :: utf8Lossy (b1 :: rest1)
    else if b0 < 0xF0 then
      match rest with
      | [] => [0xFFFD]
      | b1 :: rest1 =>
        if validSecond b0 b1 then
          match rest1 with
          | [] => [0xFFFD]
          | b2 :: rest2 =>
            if isCont b2 then
              ((b0 - 0xE0) * 0x1000 + (b1 - 0x80) * 0x40 + (b2 - 0x80)) ::
                utf8Lossy rest2
            else 0xFFFD :: utf8Lossy (b2 :: rest2)
        else 0xFFFD :: utf8Lossy (b1 :: rest1)
    else if b0 < 0xF5 then
      match rest with
      | [] => [0xFFFD]
      | b1 :: rest1 =>
        if validSecond b0 b1 then
          match rest1 with
          | [] => [0xFFFD]
          | b2 :: rest2 =>
            if isCont b2 then
              match rest2 with
              | [] => [0xFFFD]
              | b3 :: rest3 =>
                if isCont b3 then
                  ((b0 - 0xF0) * 0x40000 + (b1 - 0x80) * 0x1000 +
                    (b2 - 0x80) * 0x40 + (b3 - 0x80)) :: utf8Lossy rest3
                else 0xFFFD :: utf8Lossy (b3 :: rest3)
            else 0xFFFD :: utf8Lossy (b2 :: rest2)
        else 0xFFFD :: utf8Lossy (b1 :: rest1)
    else 0xFFFD :: utf8Lossy rest

/-- Model of `convert_to_bytes`: the byte view of the input string, each byte
widened with no value change. -/
def convert_to_bytes (input : List Nat) : List Nat := utf8Encode input

/-- The adjacent ordered pairs of a sequence, in sequence order; the zip of
the sequence with itself shifted by one, as in `get_stats` and `merge`. -/
def adjPairs (ids : List Nat) : List (Nat × Nat) := ids.zip (ids.drop 1)

/-- One step of the counting loop of `get_stats`: bump the count of the pair,
starting a new entry at 1. -/
def statsInsert : List ((Nat × Nat) × Nat) → (Nat × Nat) → List ((Nat × Nat) × Nat)
  | [], p => [(p, 1)]
  | (q, c) :: rest, p =>
    if q = p then (q, c + 1) :: rest else (q, c) :: statsInsert rest p

/-- Model of `get_stats`: occurrence counts of every adjacent ordered pair.
The entry list is kept in first-occurrence order, the canonical stand-in for
the implementation-defined HashMap iteration order. -/
def get_stats (ids : List Nat) : List ((Nat × Nat) × Nat) :=
  (adjPairs ids).foldl statsInsert []

/-- Model of `Iterator::max_by_key` on the entry list: the maximum by count,
the last maximal entry winning, as the Rust iterator adapter guarantees. -/
def maxByCount : List ((Nat × Nat) × Nat) → Option ((Nat × Nat) × Nat)
  | [] => none
  | e :: rest =>
    match maxByCount rest with
    | none => some e
    | some m => if e.2 ≤ m.2 then some m else some e

/-- The selection step of `get_most_frequent_pair` over an explicit entry
list, exposing the dependence on the mapping iteration order: the maximal
entry by count is taken and rejected when its count is below 2. -/
def getMostFrequentPairOrd (entries : List ((Nat × Nat) × Nat)) : Option (Nat × Nat) :=
  match maxByCount entries with
  | none => none
  | some (p, c) => if c < 2 then none else some p

/-- Model of `get_most_frequent_pair`, with the canonical iteration order. -/
def get_most_frequent_pair (ids : List Nat) : Option (Nat × Nat) :=
  getMostFrequentPairOrd (get_stats ids)

/-- The scanning loop of `merge` over the zipped pair list, threading the
skip_next flag; returns the pushed output and the final flag. -/
def mergeLoop (pair : Nat × Nat) (idx : Nat) :
    List (Nat × Nat) → Bool → List Nat × Bool
  | [], skip => ([], skip)
  | p :: rest, skip =>
    if skip then mergeLoop pair idx rest false
    else if p = pair then
      let r := mergeLoop pair idx rest true
      (idx :: r.1, r.2)
    else
      let r := mergeLoop pair idx rest false
      (p.1 :: r.1, r.2)

/-- Model of `merge`: sequences shorter than 2 are returned as they are;
otherwise the zipped pairs are scanned with the skip flag and the last
element is pushed unless it was consumed by a final match. -/
def merge (ids : List Nat) (pair : Nat × Nat) (idx : Nat) : List Nat :=
  if ids.length < 2 then ids
  else
    let r := mergeLoop pair idx (ids.zip (ids.drop 1)) false
    if r.2 then r.1 else r.1 ++ [ids.getLastD 0]

/-- Modelled from the spec: the left-to-right scan description of merge
application, on a match emit the replacement and advance two positions, on a
mismatch emit the current element and advance one. -/
def mergeSpec (pair : Nat × Nat) (idx : Nat) : List Nat → List Nat
  | [] => []
  | [a] => [a]
  | a :: b :: rest =>
    if (a, b) = pair then idx :: mergeSpec pair idx rest
    else a :: mergeSpec pair idx (b :: rest)

/-- Checked u16 subtraction: `none` is the debug-build underflow panic. -/
def checkedSubU16 (a b : Nat) : Option Nat :=
  if b ≤ a then some (a - b) else none

/-- The training loop of `calculate_merges`: `i` is the loop counter, `n` the
remaining rounds.  Each round selects the most frequent pair, stops when no
pair occurs at least twice, otherwise merges with the fresh identifier
`(256 + i) % 2 ^ 16` and records the rule. -/
def calcLoop : Nat → Nat → List Nat → Merges → Merges
  | _, 0, _, ms => ms
  | i, n + 1, ids, ms =>
    match get_most_frequent_pair ids with
    | none => ms
    | some p =>
      let idx := (256 + i) % 65536
      calcLoop (i + 1) n (merge ids p idx) (alInsert ms p idx)

/-- Model of `calculate_merges`: `none` when the u16 subtraction
`vocab_size - vocab_start` underflows, otherwise the table built by the
training loop. -/
def calculate_merges (ids : List Nat) (vocab_size vocab_start : Nat) : Option Merges :=
  (checkedSubU16 vocab_size vocab_start).map (fun n => calcLoop 0 n ids [])

/-- Model of `calculate_merges_default`. -/
def calculate_merges_default (ids : List Nat) (vocab_size : Nat) : Option Merges :=
  calculate_merges ids vocab_size 256

/-- The 256-entry base vocabulary: identifiers 0 to 255 map to the single
byte equal to their own value. -/
def baseVocab : Vocab := (List.range 256).map (fun i => (i, [i]))

/-- The expansion loop of `generate_vocab`: walk the merge table in insertion
order and bind each merged identifier to the concatenation of the payloads of
its constituents; `none` is the `expect` panic on a missing constituent. -/
def genLoop : Merges → Vocab → Option Vocab
  | [], v => some v
  | ((p0, p1), idx) :: rest, v =>
    match alGet v p0, alGet v p1 with
    | some a, some b => genLoop rest (alInsert v idx (a ++ b))
    | _, _ => none

/-- Model of `generate_vocab`. -/
def generate_vocab (merges : Merges) : Option Vocab := genLoop merges baseVocab

/-- The byte-gathering loop of `decode`: look each identifier up and append
its payload to the output buffer; `none` is the `expect` panic on a missing
identifier. -/
def decodeBytes : List Nat → Vocab → Option (List Nat)
  | [], _ => some []
  | i :: rest, v =>
    match alGet v i with
    | some payload => (decodeBytes rest v).map (fun tail => payload ++ tail)
    | none => none

/-- Model of `decode`: gather the payload bytes and read them back as text
with lossy UTF-8 interpretation. -/
def decode (ids : List Nat) (vocab : Vocab) : Option (List Nat) :=
  (decodeBytes ids vocab).map utf8Lossy

/-- The selection loop of `get_pair_with_lowest_value`, threading the running
minimum (initially u16::MAX) and the running pair (initially (0, 0)). -/
def gplvLoop : List ((Nat × Nat) × Nat) → Merges → Nat → (Nat × Nat) → (Nat × Nat)
  | [], _, _, minPair => minPair
  | (p, _) :: rest, ms, min, minPair =>
    match alGet ms p with
    | some code =>
      if code < min then gplvLoop rest ms code p
      else gplvLoop rest ms min minPair
    | none => gplvLoop rest ms min minPair

/-- Model of `get_pair_with_lowest_value`: among the statistics entries whose
pair is in the merge table, the pair with the smallest assigned identifier;
the sentinel (0, 0) when none qualifies. -/
def get_pair_with_lowest_value (stats : List ((Nat × Nat) × Nat)) (ms : Merges) :
    Nat × Nat :=
  gplvLoop stats ms 65535 (0, 0)

/-- The while loop of `encode` with fuel: while more than one token remains,
select the lowest-identifier table pair present in the statistics, stop when
the selected pair is not a table key, otherwise merge and repeat.  `none`
means the loop did not return within the fuel. -/
def encodeFuel : Nat → List Nat → Merges → Option (List Nat)
  | 0, _, _ => none
  | f + 1, toks, ms =>
    if toks.length ≤ 1 then some toks
    else
      let pair := get_pair_with_lowest_value (get_stats toks) ms
      match alGet ms pair with
      | none => some toks
      | some idx => encodeFuel f (merge toks pair idx) ms

/-- Model of `encode`: convert the input to bytes and run the merge loop. -/
def encode (fuel : Nat) (input : List Nat) (ms : Merges) : Option (List Nat) :=
  encodeFuel fuel (convert_to_bytes input) ms

/-- The encode loop diverges from this state: no fuel suffices. -/
def encodeDiverges (toks : List Nat) (ms : Merges) : Prop :=
  ∀ fuel, encodeFuel fuel toks ms = none

/-- Keys of an association list are pairwise distinct. -/
def keysNodup {α β : Type} (l : List (α × β)) : Prop := (l.map Prod.fst).Nodup

/-- Well-formed merge table as produced by training on byte input: the entry
at position j merges two identifiers below 256 + j into identifier 256 + j. -/
def TableWF (ms : Merges) : Prop :=
  ∀ j (h : j < ms.length),
    (ms.get ⟨j, h⟩).1.1 < 256 + j ∧ (ms.get ⟨j, h⟩).1.2 < 256 + j ∧
      (ms.get ⟨j, h⟩).2 = 256 + j

/-- The vocabulary realizes a merge table entry: both constituents and the
merged identifier are bound, and the merged payload is the concatenation. -/
def entryOK (v : Vocab) (e : (Nat × Nat) × Nat) : Prop :=
  ∃ va vb, alGet v e.1.1 = some va ∧ alGet v e.1.2 = some vb ∧
    alGet v e.2 = some (va ++ vb)

/-- Occurrence count of an adjacent ordered pair in a sequence. -/
def countPair (ids : List Nat) (p : Nat × Nat) : Nat := (adjPairs ids).count p

/-! Association list lemmas. -/

theorem alGet_insert {α β : Type} [DecidableEq α] (l : List (α × β)) (k : α) (v : β)
    (key : α) :
    alGet (alInsert l k v) key = if k = key then some v else alGet l key := by
  induction l with
  | nil => simp [alInsert, alGet]
  | cons e rest ih =>
    obtain ⟨k0, v0⟩ := e
    by_cases h0 : k0 = k
    · subst h0
      by_cases h1 : k0 = key <;> simp [alInsert, alGet, h1]
    · by_cases h1 : k0 = key
      · subst h1
        have : k ≠ k0 := fun h => h0 h.symm
        simp [alInsert, alGet, h0, ih, this]
      · simp [alInsert, alGet, h0, h1, ih]

theorem alInsert_of_not_mem {α β : Type} [DecidableEq α] (l : List (α × β)) (k : α)
    (v : β) (h : ∀ e ∈ l, e.1 ≠ k) : alInsert l k v = l ++ [(k, v)] := by
  induction l with
  | nil => simp [alInsert]
  | cons e rest ih =>
    obtain ⟨k0, v0⟩ := e
    have hk0 : k0 ≠ k := h (k0, v0) (by simp)
    simp only [alInsert, hk0, if_false, List.cons_append]
    rw [ih (fun e he => h e (by simp [he]))]

theorem alGet_mem {α β : Type} [DecidableEq α] :
    ∀ (l : List (α × β)) (k : α) (v : β), alGet l k = some v → (k, v) ∈ l := by
  intro l
  induction l with
  | nil => intro k v h; simp [alGet] at h
  | cons e rest ih =>
    intro k v h
    obtain ⟨k0, v0⟩ := e
    by_cases h0 : k0 = k
    · subst h0
      simp [alGet] at h
      simp [h]
    · simp [alGet, h0] at h
      exact List.mem_cons_of_mem _ (ih k v h)

theorem alGet_of_mem_nodup {α β : Type} [DecidableEq α] :
    ∀ (l : List (α × β)) (k : α) (v : β), keysNodup l → (k, v) ∈ l →
      alGet l k = some v := by
  intro l
  induction l with
  | nil => intro k v _ h; simp at h
  | cons e rest ih =>
    intro k v hnd hmem
    obtain ⟨k0, v0⟩ := e
    simp only [keysNodup, List.map_cons, List.nodup_cons] at hnd
    rcases List.mem_cons.1 hmem with h | h
    · rw [Prod.ext_iff] at h
      obtain ⟨hk, hv⟩ := h
      simp only at hk hv
      subst hk
      subst hv
      simp [alGet]
    · have hk0 : k0 ≠ k := by
        intro hEq
        subst hEq
        exact hnd.1 (List.mem_map.2 ⟨(k0, v), h, rfl⟩)
      simp [alGet, hk0]
      exact ih k v hnd.2 h

theorem alGet_append {α β : Type} [DecidableEq α] (l1 l2 : List (α × β)) (k : α) :
    alGet (l1 ++ l2) k =
      match alGet l1 k with
      | some v => some v
      | none => alGet l2 k := by
  induction l1 with
  | nil => simp [alGet]
  | cons e rest ih =>
    obtain ⟨k0, v0⟩ := e
    by_cases h0 : k0 = k <;> simp [alGet, h0, ih]

theorem alGet_baseVocab (i : Nat) :
    alGet baseVocab i = if i < 256 then some [i] else none := by
  have key : ∀ (n : Nat) (i : Nat),
      alGet ((List.range n).map (fun j => (j, [j]))) i =
        if i < n then some [i] else none := by
    intro n
    induction n with
    | zero => intro i; simp [alGet]
    | succ m ih =>
      intro i
      rw [List.range_succ, List.map_append, alGet_append]
      by_cases h : i < m
      · simp [ih, h, Nat.lt_succ_of_lt h]
      · by_cases h2 : i = m
        · subst h2
          simp [ih, alGet]
        · have h3 : ¬ i < m + 1 := by omega
          have h4 : ¬ m = i := by omega
          simp [ih, h, h3, h4, alGet]
  exact key 256 i

/-! Lemmas about adjacent pairs. -/

@[simp] theorem adjPairs_nil : adjPairs [] = [] := rfl

@[simp] theorem adjPairs_single (a : Nat) : adjPairs [a] = [] := rfl

@[simp] theorem adjPairs_cons₂ (a b : Nat) (t : List Nat) :
    adjPairs (a :: b :: t) = (a, b) :: adjPairs (b :: t) := rfl

theorem mem_adjPairs_cons (q : Nat × Nat) (b : Nat) (t : List Nat)
    (h : q ∈ adjPairs t) : q ∈ adjPairs (b :: t) := by
  cases t with
  | nil => simp at h
  | cons c t2 => simp [adjPairs_cons₂]; right; exact h

theorem mem_adjPairs_fst (a b : Nat) :
    ∀ l : List Nat, (a, b) ∈ adjPairs l → a ∈ l ∧ b ∈ l := by
  intro l h
  have h1 := List.of_mem_zip h
  exact ⟨h1.1, List.mem_of_mem_drop h1.2⟩

theorem countPair_pos_iff (ids : List Nat) (p : Nat × Nat) :
    0 < countPair ids p ↔ p ∈ adjPairs ids := by
  unfold countPair
  exact List.count_pos_iff

/-! The merge scan agrees with its left-to-right specification. -/

theorem getLastD_irrel {α : Type} (a x y : α) (l : List α) :
    (a :: l).getLastD x = (a :: l).getLastD y := by
  rw [List.getLastD_cons, List.getLastD_cons]

theorem mergeLoop_nil (pair : Nat × Nat) (idx : Nat) (skip : Bool) :
    mergeLoop pair idx [] skip = ([], skip) := rfl

theorem mergeLoop_skip (pair : Nat × Nat) (idx : Nat) (p : Nat × Nat)
    (rest : List (Nat × Nat)) :
    mergeLoop pair idx (p :: rest) true = mergeLoop pair idx rest false := by
  simp [mergeLoop]

theorem mergeLoop_match (pair : Nat × Nat) (idx : Nat) (p : Nat × Nat)
    (rest : List (Nat × Nat)) (h : p = pair) :
    mergeLoop pair idx (p :: rest) false =
      (idx :: (mergeLoop pair idx rest true).1, (mergeLoop pair idx rest true).2) := by
  simp [mergeLoop, h]

theorem mergeLoop_mismatch (pair : Nat × Nat) (idx : Nat) (p : Nat × Nat)
    (rest : List (Nat × Nat)) (h : ¬ p = pair) :
    mergeLoop pair idx (p :: rest) false =
      (p.1 :: (mergeLoop pair idx rest false).1, (mergeLoop pair idx rest false).2) := by
  simp [mergeLoop, h]

theorem mergeLoop_spec (pair : Nat × Nat) (idx : Nat) :
    ∀ (n : Nat) (a : Nat) (t : List Nat), (a :: t).length ≤ n →
      (if (mergeLoop pair idx (adjPairs (a :: t)) false).2
        then (mergeLoop pair idx (adjPairs (a :: t)) false).1
        else (mergeLoop pair idx (adjPairs (a :: t)) false).1 ++ [(a :: t).getLastD 0])
        = mergeSpec pair idx (a :: t) := by
  intro n
  induction n with
  | zero => intro a t h; simp at h
  | succ m ih =>
    intro a t hlen
    cases t with
    | nil => simp [mergeLoop, mergeSpec]
    | cons b t1 =>
      rw [adjPairs_cons₂]
      by_cases hp : (a, b) = pair
      · cases t1 with
        | nil =>
          rw [adjPairs_single, mergeLoop_match pair idx _ _ hp, mergeLoop_nil]
          simp [mergeSpec, hp]
        | cons c t2 =>
          have hrec := ih c t2 (by simp at hlen ⊢; omega)
          rw [adjPairs_cons₂, mergeLoop_match pair idx _ _ hp, mergeLoop_skip]
          simp only [mergeSpec, if_pos hp]
          rw [← hrec]
          simp only [List.getLastD_cons]
          cases hs : (mergeLoop pair idx (adjPairs (c :: t2)) false).2 <;>
            simp [hs]
      · have hrec := ih b t1 (by simp at hlen ⊢; omega)
        rw [mergeLoop_mismatch pair idx _ _ hp]
        simp only [mergeSpec, if_neg hp]
        rw [← hrec]
        simp only [List.getLastD_cons]
        cases hs : (mergeLoop pair idx (adjPairs (b :: t1)) false).2 <;>
          simp [hs]

theorem merge_eq_mergeSpec (ids : List Nat) (pair : Nat × Nat) (idx : Nat) :
    merge ids pair idx = mergeSpec pair idx ids := by
  cases ids with
  | nil => simp [merge, mergeSpec]
  | cons a t =>
    cases t with
    | nil => simp [merge, mergeSpec]
    | cons b t1 =>
      have h2 : ¬ (a :: b :: t1).length < 2 := by simp
      unfold merge
      rw [if_neg h2]
      exact mergeLoop_spec pair idx (a :: b :: t1).length a (b :: t1) (le_refl _)

/-! Structural lemmas about the merge scan. -/

theorem mergeSpec_ne_nil (pair : Nat × Nat) (idx a : Nat) (t : List Nat) :
    mergeSpec pair idx (a :: t) ≠ [] := by
  cases t with
  | nil => simp [mergeSpec]
  | cons b t1 => by_cases hp : (a, b) = pair <;> simp [mergeSpec, hp]

theorem mergeSpec_head (pair : Nat × Nat) (idx a : Nat) (t : List Nat) :
    (mergeSpec pair idx (a :: t)).head? = some idx ∨
      (mergeSpec pair idx (a :: t)).head? = some a := by
  cases t with
  | nil => right; simp [mergeSpec]
  | cons b t1 =>
    by_cases hp : (a, b) = pair
    · left; simp [mergeSpec, hp]
    · right; simp [mergeSpec, hp]

theorem mergeSpec_length_le (pair : Nat × Nat) (idx : Nat) :
    ∀ (n : Nat) (l : List Nat), l.length ≤ n →
      (mergeSpec pair idx l).length ≤ l.length := by
  intro n
  induction n with
  | zero =>
    intro l h
    have : l = [] := by cases l <;> simp_all
    simp [this, mergeSpec]
  | succ m ih =>
    intro l hlen
    match l with
    | [] => simp [mergeSpec]
    | [a] => simp [mergeSpec]
    | a :: b :: t =>
      by_cases hp : (a, b) = pair
      · have := ih t (by simp at hlen; omega)
        simp only [mergeSpec, if_pos hp, List.length_cons]
        simp
        omega
      · have := ih (b :: t) (by simp at hlen ⊢; omega)
        simp only [mergeSpec, if_neg hp, List.length_cons] at this ⊢
        omega

theorem mergeSpec_length_lt (pair : Nat × Nat) (idx : Nat) :
    ∀ (n : Nat) (l : List Nat), l.length ≤ n → pair ∈ adjPairs l →
      (mergeSpec pair idx l).length < l.length := by
  intro n
  induction n with
  | zero =>
    intro l h hmem
    have : l = [] := by cases l <;> simp_all
    subst this
    simp at hmem
  | succ m ih =>
    intro l hlen hmem
    match l with
    | [] => simp at hmem
    | [a] => simp at hmem
    | a :: b :: t =>
      by_cases hp : (a, b) = pair
      · have := mergeSpec_length_le pair idx t.length t (le_refl _)
        simp only [mergeSpec, if_pos hp, List.length_cons]
        omega
      · have hmem2 : pair ∈ adjPairs (b :: t) := by
          rw [adjPairs_cons₂] at hmem
          rcases List.mem_cons.1 hmem with h | h
          · exact absurd h.symm hp
          · exact h
        have := ih (b :: t) (by simp at hlen ⊢; omega) hmem2
        simp only [mergeSpec, if_neg hp, List.length_cons] at this ⊢
        omega

theorem mergeSpec_noop (pair : Nat × Nat) (idx : Nat) :
    ∀ (n : Nat) (l : List Nat), l.length ≤ n → pair ∉ adjPairs l →
      mergeSpec pair idx l = l := by
  intro n
  induction n with
  | zero =>
    intro l h _
    have : l = [] := by cases l <;> simp_all
    simp [this, mergeSpec]
  | succ m ih =>
    intro l hlen hmem
    match l with
    | [] => simp [mergeSpec]
    | [a] => simp [mergeSpec]
    | a :: b :: t =>
      rw [adjPairs_cons₂] at hmem
      have hp : ¬ (a, b) = pair := by
        intro h
        exact hmem (h ▸ List.mem_cons_self _ _)
      have hmem2 : pair ∉ adjPairs (b :: t) := fun h =>
        hmem (List.mem_cons_of_mem _ h)
      simp only [mergeSpec, if_neg hp]
      rw [ih (b :: t) (by simp at hlen ⊢; omega) hmem2]

theorem mergeSpec_mem (pair : Nat × Nat) (idx : Nat) :
    ∀ (n : Nat) (l : List Nat), l.length ≤ n → ∀ x ∈ mergeSpec pair idx l,
      x ∈ l ∨ x = idx := by
  intro n
  induction n with
  | zero =>
    intro l h x hx
    have : l = [] := by cases l <;> simp_all
    subst this
    simp [mergeSpec] at hx
  | succ m ih =>
    intro l hlen x hx
    match l with
    | [] => simp [mergeSpec] at hx
    | [a] =>
      simp [mergeSpec] at hx
      left
      simp [hx]
    | a :: b :: t =>
      by_cases hp : (a, b) = pair
      · simp only [mergeSpec, if_pos hp] at hx
        rcases List.mem_cons.1 hx with h | h
        · right; exact h
        · rcases ih t (by simp at hlen; omega) x h with h2 | h2
          · left; exact List.mem_cons_of_mem _ (List.mem_cons_of_mem _ h2)
          · right; exact h2
      · simp only [mergeSpec, if_neg hp] at hx
        rcases List.mem_cons.1 hx with h | h
        · left; simp [h]
        · rcases ih (b :: t) (by simp at hlen ⊢; omega) x h with h2 | h2
          · left; exact List.mem_cons_of_mem _ h2
          · right; exact h2

theorem mergeSpec_adjPairs (pair : Nat × Nat) (idx : Nat) :
    ∀ (n : Nat) (l : List Nat), l.length ≤ n →
      ∀ q ∈ adjPairs (mergeSpec pair idx l),
        (q ∈ adjPairs l ∧ q ≠ pair) ∨ q.1 = idx ∨ q.2 = idx := by
  intro n
  induction n with
  | zero =>
    intro l h q hq
    have : l = [] := by cases l <;> simp_all
    subst this
    simp [mergeSpec] at hq
  | succ m ih =>
    intro l hlen q hq
    match l with
    | [] => simp [mergeSpec] at hq
    | [a] => simp [mergeSpec] at hq
    | a :: b :: t =>
      by_cases hp : (a, b) = pair
      · simp only [mergeSpec, if_pos hp] at hq
        cases t with
        | nil => simp [mergeSpec] at hq
        | cons c t2 =>
          obtain ⟨hd, tl, hM⟩ : ∃ hd tl, mergeSpec pair idx (c :: t2) = hd :: tl := by
            cases hM : mergeSpec pair idx (c :: t2) with
            | nil => exact absurd hM (mergeSpec_ne_nil pair idx c t2)
            | cons hd tl => exact ⟨hd, tl, rfl⟩
          rw [hM, adjPairs_cons₂] at hq
          rcases List.mem_cons.1 hq with h | h
          · right; left; simp [h]
          · rw [← hM] at h
            rcases ih (c :: t2) (by simp at hlen ⊢; omega) q h with ⟨h2, h3⟩ | h2
            · exact Or.inl ⟨mem_adjPairs_cons q a _ (mem_adjPairs_cons q b _ h2), h3⟩
            · right; exact h2
      · simp only [mergeSpec, if_neg hp] at hq
        obtain ⟨hd, tl, hM⟩ : ∃ hd tl, mergeSpec pair idx (b :: t) = hd :: tl := by
          cases hM : mergeSpec pair idx (b :: t) with
          | nil => exact absurd hM (mergeSpec_ne_nil pair idx b t)
          | cons hd tl => exact ⟨hd, tl, rfl⟩
        rw [hM, adjPairs_cons₂] at hq
        rcases List.mem_cons.1 hq with h | h
        · have hhd : hd = idx ∨ hd = b := by
            rcases mergeSpec_head pair idx b t with h2 | h2 <;>
              rw [hM] at h2 <;> simp at h2 <;> simp [h2]
          rcases hhd with h2 | h2
          · subst h2
            right; right; simp [h]
          · subst h2
            left
            refine ⟨?_, ?_⟩
            · rw [h, adjPairs_cons₂]
              exact List.mem_cons_self _ _
            · rw [h]; exact hp
        · rw [← hM] at h
          rcases ih (b :: t) (by simp at hlen ⊢; omega) q h with ⟨h2, h3⟩ | h2
          · exact Or.inl ⟨mem_adjPairs_cons q a _ h2, h3⟩
          · right; exact h2

theorem decodeBytes_cons_some (v : Vocab) (i : Nat) (rest : List Nat)
    (p : List Nat) (h : alGet v i = some p) :
    decodeBytes (i :: rest) v =
      Option.map (fun tail => p ++ tail) (decodeBytes rest v) := by
  simp [decodeBytes, h]

theorem decodeBytes_cons_none (v : Vocab) (i : Nat) (rest : List Nat)
    (h : alGet v i = none) : decodeBytes (i :: rest) v = none := by
  simp [decodeBytes, h]

theorem decodeBytes_mergeSpec (v : Vocab) (a b idx : Nat) (va vb : List Nat)
    (ha : alGet v a = some va) (hb : alGet v b = some vb)
    (hi : alGet v idx = some (va ++ vb)) :
    ∀ (n : Nat) (l : List Nat), l.length ≤ n →
      decodeBytes (mergeSpec (a, b) idx l) v = decodeBytes l v := by
  intro n
  induction n with
  | zero =>
    intro l h
    have : l = [] := by cases l <;> simp_all
    simp [this, mergeSpec]
  | succ m ih =>
    intro l hlen
    match l with
    | [] => simp [mergeSpec]
    | [x] => simp [mergeSpec]
    | x :: y :: t =>
      by_cases hp : (x, y) = (a, b)
      · have hx : x = a := by
          have := congrArg Prod.fst hp
          simpa using this
        have hy : y = b := by
          have := congrArg Prod.snd hp
          simpa using this
        rw [hx, hy]
        have hms : mergeSpec (a, b) idx (a :: b :: t) = idx :: mergeSpec (a, b) idx t := by
          simp [mergeSpec]
        rw [hms]
        rw [decodeBytes_cons_some v idx _ _ hi,
          decodeBytes_cons_some v a _ _ ha, decodeBytes_cons_some v b _ _ hb,
          ih t (by simp at hlen; omega)]
        cases hd : decodeBytes t v with
        | none => rfl
        | some B => simp [List.append_assoc]
      · simp only [mergeSpec, if_neg hp]
        cases hx2 : alGet v x with
        | none =>
          rw [decodeBytes_cons_none v x _ hx2, decodeBytes_cons_none v x _ hx2]
        | some p =>
          rw [decodeBytes_cons_some v x _ _ hx2,
            decodeBytes_cons_some v x _ _ hx2,
            ih (y :: t) (by simp at hlen ⊢; omega)]

/-! Lemmas about pair statistics. -/

theorem statsInsert_alGet (l : List ((Nat × Nat) × Nat)) (p q : Nat × Nat) :
    alGet (statsInsert l p) q =
      if q = p then some ((alGet l p).getD 0 + 1) else alGet l q := by
  induction l with
  | nil =>
    by_cases h : q = p
    · subst h; simp [statsInsert, alGet]
    · have : p ≠ q := fun hh => h hh.symm
      simp [statsInsert, alGet, h, this]
  | cons e rest ih =>
    obtain ⟨r, c⟩ := e
    by_cases h1 : r = p
    · subst h1
      by_cases h2 : q = r
      · subst h2; simp [statsInsert, alGet]
      · have : r ≠ q := fun hh => h2 hh.symm
        simp [statsInsert, alGet, h2, this]
    · by_cases h2 : r = q
      · subst h2
        simp [statsInsert, alGet, h1]
      · simp [statsInsert, alGet, h1, h2, ih]

theorem mem_keys_statsInsert (l : List ((Nat × Nat) × Nat)) (p k : Nat × Nat)
    (h : k ∈ (statsInsert l p).map Prod.fst) :
    k ∈ l.map Prod.fst ∨ k = p := by
  induction l with
  | nil => simp [statsInsert] at h; simp [h]
  | cons e rest ih =>
    obtain ⟨r, c⟩ := e
    by_cases h1 : r = p
    · subst h1
      simp only [statsInsert, if_pos rfl] at h
      simp at h ⊢
      tauto
    · simp only [statsInsert, if_neg h1, List.map_cons] at h
      rcases List.mem_cons.1 h with h2 | h2
      · left; simp [h2]
      · rcases ih h2 with h3 | h3
        · left; simp at h3 ⊢; tauto
        · right; exact h3

theorem statsInsert_keysNodup (l : List ((Nat × Nat) × Nat)) (p : Nat × Nat)
    (h : keysNodup l) : keysNodup (statsInsert l p) := by
  induction l with
  | nil => simp [statsInsert, keysNodup]
  | cons e rest ih =>
    obtain ⟨r, c⟩ := e
    simp only [keysNodup, List.map_cons, List.nodup_cons] at h
    by_cases h1 : r = p
    · subst h1
      simpa [statsInsert, keysNodup] using h
    · have h3 := ih h.2
      simp only [statsInsert, if_neg h1, keysNodup, List.map_cons,
        List.nodup_cons]
      refine ⟨?_, h3⟩
      intro hmem
      rcases mem_keys_statsInsert rest p r hmem with h4 | h4
      · exact h.1 h4
      · exact h1 h4

theorem foldl_statsInsert_alGet :
    ∀ (ps : List (Nat × Nat)) (acc : List ((Nat × Nat) × Nat)) (q : Nat × Nat),
      alGet (ps.foldl statsInsert acc) q =
        match alGet acc q with
        | some c => some (c + ps.count q)
        | none => if ps.count q = 0 then none else some (ps.count q) := by
  intro ps
  induction ps with
  | nil =>
    intro acc q
    cases h : alGet acc q <;> simp [h]
  | cons p ps ih =>
    intro acc q
    rw [List.foldl_cons, ih]
    by_cases hq : q = p
    · subst hq
      rw [statsInsert_alGet]
      simp only [if_pos rfl]
      have hcnt : (q :: ps).count q = ps.count q + 1 := by
        simp [List.count_cons]
      rw [hcnt]
      cases h : alGet acc q <;> simp [h] <;> omega
    · rw [statsInsert_alGet]
      rw [if_neg hq]
      have hcnt : (p :: ps).count q = ps.count q := by
        simp [List.count_cons, hq]
      rw [hcnt]

theorem get_stats_alGet (ids : List Nat) (q : Nat × Nat) :
    alGet (get_stats ids) q =
      if countPair ids q = 0 then none else some (countPair ids q) := by
  unfold get_stats countPair
  rw [foldl_statsInsert_alGet]
  simp [alGet]

theorem get_stats_keysNodup (ids : List Nat) : keysNodup (get_stats ids) := by
  unfold get_stats
  have key : ∀ (ps : List (Nat × Nat)) (acc : List ((Nat × Nat) × Nat)),
      keysNodup acc → keysNodup (ps.foldl statsInsert acc) := by
    intro ps
    induction ps with
    | nil => intro acc h; exact h
    | cons p ps ih =>
      intro acc h
      exact ih _ (statsInsert_keysNodup acc p h)
  exact key _ [] (by simp [keysNodup])

theorem mem_get_stats (ids : List Nat) (q : Nat × Nat) (c : Nat)
    (h : (q, c) ∈ get_stats ids) : c = countPair ids q ∧ 0 < c := by
  have h2 := alGet_of_mem_nodup _ _ _ (get_stats_keysNodup ids) h
  rw [get_stats_alGet] at h2
  by_cases h3 : countPair ids q = 0
  · rw [if_pos h3] at h2; cases h2
  · rw [if_neg h3] at h2
    obtain rfl : countPair ids q = c := by
      injection h2
    omega

theorem mem_get_stats_adj (ids : List Nat) (q : Nat × Nat) (c : Nat)
    (h : (q, c) ∈ get_stats ids) : q ∈ adjPairs ids := by
  obtain ⟨h1, h2⟩ := mem_get_stats ids q c h
  rw [← countPair_pos_iff]
  omega

theorem adj_mem_get_stats (ids : List Nat) (q : Nat × Nat)
    (h : q ∈ adjPairs ids) : (q, countPair ids q) ∈ get_stats ids := by
  have h1 : countPair ids q ≠ 0 := by
    rw [← countPair_pos_iff] at h
    omega
  have h2 := get_stats_alGet ids q
  rw [if_neg h1] at h2
  exact alGet_mem _ _ _ h2

/-! Lemmas about the maximum-by-count selection. -/

theorem maxByCount_eq_none (l : List ((Nat × Nat) × Nat)) :
    maxByCount l = none ↔ l = [] := by
  cases l with
  | nil => simp [maxByCount]
  | cons e rest =>
    simp only [maxByCount]
    cases maxByCount rest with
    | none => simp
    | some m =>
      by_cases h : e.2 ≤ m.2 <;> simp [h]

theorem maxByCount_mem :
    ∀ (l : List ((Nat × Nat) × Nat)) (e : (Nat × Nat) × Nat),
      maxByCount l = some e → e ∈ l := by
  intro l
  induction l with
  | nil => intro e h; simp [maxByCount] at h
  | cons a rest ih =>
    intro e h
    cases hm : maxByCount rest with
    | none =>
      simp only [maxByCount, hm] at h
      simp at h; simp [h]
    | some m =>
      simp only [maxByCount, hm] at h
      by_cases h2 : a.2 ≤ m.2
      · rw [if_pos h2] at h
        obtain rfl : m = e := by injection h
        exact List.mem_cons_of_mem _ (ih _ hm)
      · rw [if_neg h2] at h
        obtain rfl : a = e := by injection h
        exact List.mem_cons_self _ _

theorem maxByCount_max :
    ∀ (l : List ((Nat × Nat) × Nat)) (e : (Nat × Nat) × Nat),
      maxByCount l = some e → ∀ x ∈ l, x.2 ≤ e.2 := by
  intro l
  induction l with
  | nil => intro e h; simp [maxByCount] at h
  | cons a rest ih =>
    intro e h x hx
    cases hm : maxByCount rest with
    | none =>
      simp only [maxByCount, hm] at h
      simp at h
      have : rest = [] := (maxByCount_eq_none rest).1 hm
      subst this
      simp at hx
      simp [hx, h]
    | some m =>
      simp only [maxByCount, hm] at h
      rcases List.mem_cons.1 hx with h2 | h2
      · subst h2
        by_cases h3 : x.2 ≤ m.2
        · rw [if_pos h3] at h
          obtain rfl : m = e := by injection h
          exact h3
        · rw [if_neg h3] at h
          obtain rfl : x = e := by injection h
          exact le_refl _
      · by_cases h3 : a.2 ≤ m.2
        · rw [if_pos h3] at h
          obtain rfl : m = e := by injection h
          exact ih _ hm x h2
        · rw [if_neg h3] at h
          obtain rfl : a = e := by injection h
          have h4 := ih _ hm x h2
          omega

theorem getMostFrequentPairOrd_some (entries : List ((Nat × Nat) × Nat))
    (p : Nat × Nat) (h : getMostFrequentPairOrd entries = some p) :
    ∃ c, (p, c) ∈ entries ∧ 2 ≤ c ∧ ∀ x ∈ entries, x.2 ≤ c := by
  unfold getMostFrequentPairOrd at h
  cases hm : maxByCount entries with
  | none => rw [hm] at h; cases h
  | some e =>
    rw [hm] at h
    obtain ⟨q, c⟩ := e
    by_cases h2 : c < 2
    · simp [h2] at h
    · simp [h2] at h
      subst h
      exact ⟨c, maxByCount_mem _ _ hm, by omega, maxByCount_max _ _ hm⟩

theorem get_most_frequent_pair_mem (ids : List Nat) (p : Nat × Nat)
    (h : get_most_frequent_pair ids = some p) :
    p ∈ adjPairs ids ∧ 2 ≤ countPair ids p := by
  obtain ⟨c, hmem, hc, _⟩ := getMostFrequentPairOrd_some _ _ h
  obtain ⟨hcnt, _⟩ := mem_get_stats ids p c hmem
  subst hcnt
  exact ⟨mem_get_stats_adj ids p _ hmem, hc⟩

theorem get_most_frequent_pair_none (ids : List Nat)
    (h : ∀ p, countPair ids p < 2) : get_most_frequent_pair ids = none := by
  unfold get_most_frequent_pair getMostFrequentPairOrd
  cases hm : maxByCount (get_stats ids) with
  | none => rfl
  | some e =>
    obtain ⟨q, c⟩ := e
    obtain ⟨hcnt, _⟩ := mem_get_stats ids q c (maxByCount_mem _ _ hm)
    have := h q
    have h2 : c < 2 := by omega
    simp [h2]

/-! Lemmas about the lowest-identifier selection. -/

theorem gplvLoop_stay :
    ∀ (stats : List ((Nat × Nat) × Nat)) (ms : Merges) (min : Nat)
      (mp : Nat × Nat),
      (∀ q c cq, (q, c) ∈ stats → alGet ms q = some cq → ¬ cq < min) →
      gplvLoop stats ms min mp = mp := by
  intro stats
  induction stats with
  | nil => intro ms min mp _; rfl
  | cons e rest ih =>
    intro ms min mp h
    obtain ⟨p, c⟩ := e
    cases hget : alGet ms p with
    | none =>
      simp only [gplvLoop, hget]
      exact ih ms min mp (fun q c cq hq hcq => h q c cq (List.mem_cons_of_mem _ hq) hcq)
    | some code =>
      have hnlt := h p c code (List.mem_cons_self _ _) hget
      simp only [gplvLoop, hget, if_neg hnlt]
      exact ih ms min mp (fun q c cq hq hcq => h q c cq (List.mem_cons_of_mem _ hq) hcq)

theorem gplvLoop_min :
    ∀ (stats : List ((Nat × Nat) × Nat)) (ms : Merges) (min : Nat)
      (mp p : Nat × Nat) (code : Nat),
      alGet ms p = some code → code < min → (∃ c, (p, c) ∈ stats) →
      (∀ q c cq, (q, c) ∈ stats → alGet ms q = some cq → q ≠ p → code < cq) →
      gplvLoop stats ms min mp = p := by
  intro stats
  induction stats with
  | nil =>
    intro ms min mp p code _ _ hmem _
    obtain ⟨c, hc⟩ := hmem
    simp at hc
  | cons e rest ih =>
    intro ms min mp p code hget hlt hmem hother
    obtain ⟨q0, c0⟩ := e
    by_cases hq : q0 = p
    · subst hq
      simp only [gplvLoop, hget]
      rw [if_pos hlt]
      apply gplvLoop_stay
      intro q c cq hq2 hcq
      by_cases hqp : q = q0
      · subst hqp
        rw [hget] at hcq
        obtain rfl : code = cq := by injection hcq
        omega
      · have := hother q c cq (List.mem_cons_of_mem _ hq2) hcq hqp
        omega
    · have hmem2 : ∃ c, (p, c) ∈ rest := by
        obtain ⟨c, hc⟩ := hmem
        rcases List.mem_cons.1 hc with h2 | h2
        · exact absurd (congrArg Prod.fst h2).symm (by simpa using hq)
        · exact ⟨c, h2⟩
      have hother2 : ∀ q c cq, (q, c) ∈ rest → alGet ms q = some cq → q ≠ p → code < cq :=
        fun q c cq hqm hcq hne => hother q c cq (List.mem_cons_of_mem _ hqm) hcq hne
      cases hget0 : alGet ms q0 with
      | none =>
        simp only [gplvLoop, hget0]
        exact ih ms min mp p code hget hlt hmem2 hother2
      | some cq0 =>
        have hcode : code < cq0 := hother q0 c0 cq0 (List.mem_cons_self _ _) hget0 hq
        simp only [gplvLoop, hget0]
        by_cases h2 : cq0 < min
        · rw [if_pos h2]
          exact ih ms cq0 q0 p code hget hcode hmem2 hother2
        · rw [if_neg h2]
          exact ih ms min mp p code hget hlt hmem2 hother2

theorem gplvLoop_none :
    ∀ (stats : List ((Nat × Nat) × Nat)) (ms : Merges) (min : Nat)
      (mp : Nat × Nat),
      (∀ q c, (q, c) ∈ stats → alGet ms q = none) →
      gplvLoop stats ms min mp = mp := by
  intro stats ms min mp h
  apply gplvLoop_stay
  intro q c cq hq hcq
  rw [h q c hq] at hcq
  cases hcq

/-! Lemmas about the encode loop. -/

theorem encodeFuel_small (f : Nat) (toks : List Nat) (ms : Merges)
    (hlen : toks.length ≤ 1) : encodeFuel (f + 1) toks ms = some toks := by
  simp [encodeFuel, hlen]

theorem encodeFuel_stop (f : Nat) (toks : List Nat) (ms : Merges)
    (hlen : ¬ toks.length ≤ 1)
    (hnone : alGet ms (get_pair_with_lowest_value (get_stats toks) ms) = none) :
    encodeFuel (f + 1) toks ms = some toks := by
  simp [encodeFuel, hlen, hnone]

theorem encodeFuel_step (f : Nat) (toks : List Nat) (ms : Merges) (idx : Nat)
    (hlen : ¬ toks.length ≤ 1)
    (hsome : alGet ms (get_pair_with_lowest_value (get_stats toks) ms) = some idx) :
    encodeFuel (f + 1) toks ms =
      encodeFuel f (merge toks (get_pair_with_lowest_value (get_stats toks) ms) idx) ms := by
  simp [encodeFuel, hlen, hsome]

theorem encodeFuel_fix (toks : List Nat) (ms : Merges) (p : Nat × Nat) (idx : Nat)
    (hp : get_pair_with_lowest_value (get_stats toks) ms = p)
    (hget : alGet ms p = some idx) (hfix : merge toks p idx = toks)
    (hlen : ¬ toks.length ≤ 1) : encodeDiverges toks ms := by
  intro f
  induction f with
  | zero => rfl
  | succ g ih =>
    rw [encodeFuel_step g toks ms idx hlen (hp ▸ hget), hp, hfix]
    exact ih

/-! UTF-8: decoding inverts encoding on valid scalar values. -/

theorem utf8Lossy_one (b0 : Nat) (rest : List Nat) (h : b0 < 0x80) :
    utf8Lossy (b0 :: rest) = b0 :: utf8Lossy rest := by
  rw [utf8Lossy.eq_def]
  simp only [if_pos h]

theorem utf8Lossy_two (b0 b1 : Nat) (rest : List Nat) (ha : 0xC2 ≤ b0)
    (hb : b0 < 0xE0) (hc : isCont b1 = true) :
    utf8Lossy (b0 :: b1 :: rest) =
      ((b0 - 0xC0) * 0x40 + (b1 - 0x80)) :: utf8Lossy rest := by
  rw [utf8Lossy.eq_def]
  have h1 : ¬ b0 < 0x80 := by omega
  have h2 : ¬ b0 < 0xC2 := by omega
  simp only [if_neg h1, if_neg h2, if_pos hb, hc, if_true]

theorem utf8Lossy_three (b0 b1 b2 : Nat) (rest : List Nat) (ha : 0xE0 ≤ b0)
    (hb : b0 < 0xF0) (hv : validSecond b0 b1 = true) (hc : isCont b2 = true) :
    utf8Lossy (b0 :: b1 :: b2 :: rest) =
      ((b0 - 0xE0) * 0x1000 + (b1 - 0x80) * 0x40 + (b2 - 0x80)) ::
        utf8Lossy rest := by
  rw [utf8Lossy.eq_def]
  have h1 : ¬ b0 < 0x80 := by omega
  have h2 : ¬ b0 < 0xC2 := by omega
  have h3 : ¬ b0 < 0xE0 := by omega
  simp only [if_neg h1, if_neg h2, if_neg h3, if_pos hb, hv, hc, if_true]

theorem utf8Lossy_four (b0 b1 b2 b3 : Nat) (rest : List Nat) (ha : 0xF0 ≤ b0)
    (hb : b0 < 0xF5) (hv : validSecond b0 b1 = true) (hc2 : isCont b2 = true)
    (hc3 : isCont b3 = true) :
    utf8Lossy (b0 :: b1 :: b2 :: b3 :: rest) =
      ((b0 - 0xF0) * 0x40000 + (b1 - 0x80) * 0x1000 + (b2 - 0x80) * 0x40 +
        (b3 - 0x80)) :: utf8Lossy rest := by
  rw [utf8Lossy.eq_def]
  have h1 : ¬ b0 < 0x80 := by omega
  have h2 : ¬ b0 < 0xC2 := by omega
  have h3 : ¬ b0 < 0xE0 := by omega
  have h4 : ¬ b0 < 0xF0 := by omega
  simp only [if_neg h1, if_neg h2, if_neg h3, if_neg h4, if_pos hb, hv, hc2,
    hc3, if_true]

theorem utf8EncodeChar_lossy (c : Nat) (hv : ValidChar c) (rest : List Nat) :
    utf8Lossy (utf8EncodeChar c ++ rest) = c :: utf8Lossy rest := by
  obtain ⟨hub, hsur⟩ := hv
  by_cases h1 : c < 0x80
  · rw [utf8EncodeChar, if_pos h1]
    simp only [List.cons_append, List.nil_append]
    rw [utf8Lossy_one c rest h1]
  · by_cases h2 : c < 0x800
    · rw [utf8EncodeChar, if_neg h1, if_pos h2]
      simp only [List.cons_append, List.nil_append]
      rw [utf8Lossy_two _ _ _ (by omega) (by omega)
        (by simp only [isCont, Bool.and_eq_true, decide_eq_true_eq]; omega)]
      have hval : (0xC0 + c / 0x40 - 0xC0) * 0x40 + (0x80 + c % 0x40 - 0x80) = c := by
        omega
      rw [hval]
    · by_cases h3 : c < 0x10000
      · rw [utf8EncodeChar, if_neg h1, if_neg h2, if_pos h3]
        simp only [List.cons_append, List.nil_append]
        have hvs : validSecond (0xE0 + c / 0x1000) (0x80 + c / 0x40 % 0x40) = true := by
          simp only [validSecond]
          split_ifs with hA hB hC hD <;>
            simp only [isCont, Bool.and_eq_true, decide_eq_true_eq] <;>
            constructor <;> omega
        rw [utf8Lossy_three _ _ _ _ (by omega) (by omega) hvs
          (by simp only [isCont, Bool.and_eq_true, decide_eq_true_eq]; omega)]
        have hval : (0xE0 + c / 0x1000 - 0xE0) * 0x1000 +
            (0x80 + c / 0x40 % 0x40 - 0x80) * 0x40 + (0x80 + c % 0x40 - 0x80) = c := by
          omega
        rw [hval]
      · rw [utf8EncodeChar, if_neg h1, if_neg h2, if_neg h3]
        simp only [List.cons_append, List.nil_append]
        have hvs : validSecond (0xF0 + c / 0x40000)
            (0x80 + c / 0x1000 % 0x40) = true := by
          simp only [validSecond]
          split_ifs with hA hB hC hD <;>
            simp only [isCont, Bool.and_eq_true, decide_eq_true_eq] <;>
            constructor <;> omega
        rw [utf8Lossy_four _ _ _ _ _ (by omega) (by omega) hvs
          (by simp only [isCont, Bool.and_eq_true, decide_eq_true_eq]; omega)
          (by simp only [isCont, Bool.and_eq_true, decide_eq_true_eq]; omega)]
        have hval : (0xF0 + c / 0x40000 - 0xF0) * 0x40000 +
            (0x80 + c / 0x1000 % 0x40 - 0x80) * 0x1000 +
            (0x80 + c / 0x40 % 0x40 - 0x80) * 0x40 + (0x80 + c % 0x40 - 0x80) = c := by
          omega
        rw [hval]

theorem utf8Lossy_utf8Encode (s : List Nat) (hv : ValidString s) :
    utf8Lossy (utf8Encode s) = s := by
  induction s with
  | nil => rfl
  | cons c t ih =>
    have h1 : ValidChar c := hv c (List.mem_cons_self _ _)
    have h2 : ValidString t := fun x hx => hv x (List.mem_cons_of_mem _ hx)
    have henc : utf8Encode (c :: t) = utf8EncodeChar c ++ utf8Encode t := by
      simp [utf8Encode]
    rw [henc, utf8EncodeChar_lossy c h1, ih h2]

theorem utf8EncodeChar_lt (c : Nat) (hc : c < 0x110000) :
    ∀ b ∈ utf8EncodeChar c, b < 256 := by
  intro b hb
  unfold utf8EncodeChar at hb
  split_ifs at hb <;> simp at hb <;> rcases hb with h | h | h | h <;> omega

theorem utf8Encode_lt (s : List Nat) (hv : ValidString s) :
    ∀ b ∈ utf8Encode s, b < 256 := by
  intro b hb
  unfold utf8Encode at hb
  rw [List.mem_flatten] at hb
  obtain ⟨l, hl, hbl⟩ := hb
  rw [List.mem_map] at hl
  obtain ⟨c, hc, rfl⟩ := hl
  exact utf8EncodeChar_lt c (hv c hc).1 b hbl

/-! The training loop preserves table well-formedness. -/

theorem TableWF_nil : TableWF [] := by
  intro j h
  simp at h

theorem TableWF_append (ms : Merges) (a b idx : Nat) (hWF : TableWF ms)
    (ha : a < 256 + ms.length) (hb : b < 256 + ms.length)
    (hidx : idx = 256 + ms.length) : TableWF (ms ++ [((a, b), idx)]) := by
  intro j h
  simp only [List.get_eq_getElem] at *
  rw [List.length_append, List.length_singleton] at h
  by_cases hj : j < ms.length
  · have e1 : (ms ++ [((a, b), idx)])[j] = ms[j] := List.getElem_append_left hj
    rw [e1]
    have := hWF j hj
    simp only [List.get_eq_getElem] at this
    exact this
  · have hj2 : j = ms.length := by omega
    subst hj2
    have e1 : (ms ++ [((a, b), idx)])[ms.length] = ((a, b), idx) := by
      rw [List.getElem_append_right (le_refl _)]
      simp
    rw [e1]
    exact ⟨ha, hb, hidx⟩

theorem TableWF_comp_lt (ms : Merges) (hWF : TableWF ms) (e : (Nat × Nat) × Nat)
    (he : e ∈ ms) : e.1.1 < 256 + ms.length ∧ e.1.2 < 256 + ms.length := by
  obtain ⟨⟨j, hj⟩, rfl⟩ := List.mem_iff_get.1 he
  have := hWF j hj
  exact ⟨by omega, by omega⟩

theorem calcLoop_inv :
    ∀ (n i : Nat) (ids : List Nat) (ms : Merges),
      i + n ≤ 65280 → ms.length = i → TableWF ms →
      (∀ x ∈ ids, x < 256 + i) →
      (∀ e ∈ ms, e.1 ∉ adjPairs ids) →
      TableWF (calcLoop i n ids ms) := by
  intro n
  induction n with
  | zero => intro i ids ms _ _ hWF _ _; exact hWF
  | succ m ih =>
    intro i ids ms hbound hlen hWF htok hkeys
    cases hg : get_most_frequent_pair ids with
    | none => simp only [calcLoop, hg]; exact hWF
    | some p =>
      simp only [calcLoop, hg]
      have hpadj : p ∈ adjPairs ids := (get_most_frequent_pair_mem ids p hg).1
      have hcomp := mem_adjPairs_fst p.1 p.2 ids (by rwa [Prod.mk.eta])
      have ha : p.1 < 256 + i := htok _ hcomp.1
      have hb : p.2 < 256 + i := htok _ hcomp.2
      have hmod : (256 + i) % 65536 = 256 + i := Nat.mod_eq_of_lt (by omega)
      have hnotkey : ∀ e ∈ ms, e.1 ≠ p := by
        intro e he hEq
        exact hkeys e he (hEq ▸ hpadj)
      rw [hmod, alInsert_of_not_mem ms p (256 + i) hnotkey]
      apply ih (i + 1) _ _ (by omega) (by simp [hlen]) ?_ ?_ ?_
      · have hT : TableWF (ms ++ [((p.1, p.2), 256 + i)]) :=
          TableWF_append ms p.1 p.2 (256 + i) hWF (by omega) (by omega) (by omega)
        simpa using hT
      · intro x hx
        rw [merge_eq_mergeSpec] at hx
        rcases mergeSpec_mem p (256 + i) ids.length ids (le_refl _) x hx with h | h
        · have := htok x h
          omega
        · omega
      · intro e he
        rw [merge_eq_mergeSpec]
        intro hq
        rcases mergeSpec_adjPairs p (256 + i) ids.length ids (le_refl _) e.1 hq
          with ⟨hadj, hne⟩ | h | h
        · rcases List.mem_append.1 he with he2 | he2
          · exact hkeys e he2 hadj
          · simp at he2
            exact hne (by rw [he2])
        · rcases List.mem_append.1 he with he2 | he2
          · have := (TableWF_comp_lt ms hWF e he2).1
            omega
          · simp at he2
            rw [he2] at h
            simp at h
            omega
        · rcases List.mem_append.1 he with he2 | he2
          · have := (TableWF_comp_lt ms hWF e he2).2
            omega
          · simp at he2
            rw [he2] at h
            simp at h
            omega

theorem TableWF_map_snd (ms : Merges) (h : TableWF ms) :
    ms.map Prod.snd = List.range' 256 ms.length := by
  apply List.ext_getElem
  · simp
  · intro j h1 h2
    simp only [List.getElem_map, List.getElem_range']
    have := h j (by simpa using h1)
    simp only [List.get_eq_getElem] at this
    omega

theorem calculate_merges_TableWF (ids : List Nat) (vs vst : Nat)
    (hids : ∀ x ∈ ids, x < 256) (hn : vs - vst ≤ 65280) (hvs : vst ≤ vs) :
    calculate_merges ids vs vst = some (calcLoop 0 (vs - vst) ids []) ∧
      TableWF (calcLoop 0 (vs - vst) ids []) := by
  constructor
  · simp [calculate_merges, checkedSubU16, hvs]
  · exact calcLoop_inv (vs - vst) 0 ids [] (by omega) rfl TableWF_nil
      (by simpa using hids) (by simp)

/-! Vocabulary construction on well-formed tables. -/

theorem genLoop_ok :
    ∀ (tbl : Merges) (k : Nat) (w : Vocab),
      (∀ i, (alGet w i).isSome ↔ i < 256 + k) →
      (∀ b, b < 256 → alGet w b = some [b]) →
      (∀ j (h : j < tbl.length),
        (tbl.get ⟨j, h⟩).1.1 < 256 + k + j ∧ (tbl.get ⟨j, h⟩).1.2 < 256 + k + j ∧
          (tbl.get ⟨j, h⟩).2 = 256 + k + j) →
      ∃ v, genLoop tbl w = some v ∧
        (∀ b, b < 256 → alGet v b = some [b]) ∧
        (∀ e ∈ tbl, entryOK v e) ∧
        (∀ i, i < 256 + k → alGet v i = alGet w i) := by
  intro tbl
  induction tbl with
  | nil =>
    intro k w hkeys hbase _
    exact ⟨w, rfl, hbase, by simp, fun i _ => rfl⟩
  | cons e rest ih =>
    intro k w hkeys hbase hWF
    obtain ⟨⟨p0, p1⟩, idx⟩ := e
    have h0 := hWF 0 (by simp)
    simp only [List.get_eq_getElem, List.getElem_cons_zero] at h0
    obtain ⟨hp0, hp1, hidx⟩ := h0
    simp only [Nat.add_zero] at hp0 hp1 hidx
    obtain ⟨va, hva⟩ := Option.isSome_iff_exists.1 ((hkeys p0).2 (by omega))
    obtain ⟨vb, hvb⟩ := Option.isSome_iff_exists.1 ((hkeys p1).2 (by omega))
    have hstep : genLoop (((p0, p1), idx) :: rest) w =
        genLoop rest (alInsert w idx (va ++ vb)) := by
      simp [genLoop, hva, hvb]
    have hkeys2 : ∀ i, (alGet (alInsert w idx (va ++ vb)) i).isSome ↔
        i < 256 + (k + 1) := by
      intro i
      rw [alGet_insert]
      by_cases h : idx = i
      · subst h
        simp
        omega
      · rw [if_neg h]
        rw [hkeys i]
        omega
    have hbase2 : ∀ b, b < 256 → alGet (alInsert w idx (va ++ vb)) b = some [b] := by
      intro b hblt
      rw [alGet_insert, if_neg (by omega)]
      exact hbase b hblt
    have hWF2 : ∀ j (h : j < rest.length),
        (rest.get ⟨j, h⟩).1.1 < 256 + (k + 1) + j ∧
          (rest.get ⟨j, h⟩).1.2 < 256 + (k + 1) + j ∧
          (rest.get ⟨j, h⟩).2 = 256 + (k + 1) + j := by
      intro j h
      have := hWF (j + 1) (by simp; omega)
      simp only [List.get_eq_getElem, List.getElem_cons_succ] at this
      simp only [List.get_eq_getElem]
      refine ⟨by omega, by omega, by omega⟩
    obtain ⟨v, hv, hvbase, hvOK, hvstab⟩ := ih (k + 1) _ hkeys2 hbase2 hWF2
    refine ⟨v, by rw [hstep]; exact hv, hvbase, ?_, ?_⟩
    · intro e2 he2
      rcases List.mem_cons.1 he2 with h | h
      · subst h
        refine ⟨va, vb, ?_, ?_, ?_⟩
        · rw [hvstab p0 (by omega), alGet_insert, if_neg (by omega)]
          exact hva
        · rw [hvstab p1 (by omega), alGet_insert, if_neg (by omega)]
          exact hvb
        · rw [hvstab idx (by omega), alGet_insert, if_pos rfl]
      · exact hvOK e2 h
    · intro i hi
      rw [hvstab i (by omega), alGet_insert, if_neg (by omega)]

theorem generate_vocab_ok (tbl : Merges) (hWF : TableWF tbl) :
    ∃ v, generate_vocab tbl = some v ∧
      (∀ b, b < 256 → alGet v b = some [b]) ∧ ∀ e ∈ tbl, entryOK v e := by
  have hkeys : ∀ i, (alGet baseVocab i).isSome ↔ i < 256 + 0 := by
    intro i
    rw [alGet_baseVocab]
    by_cases h : i < 256 <;> simp [h]
  have hbase : ∀ b, b < 256 → alGet baseVocab b = some [b] := by
    intro b hb
    rw [alGet_baseVocab, if_pos hb]
  have hWF2 : ∀ j (h : j < tbl.length),
      (tbl.get ⟨j, h⟩).1.1 < 256 + 0 + j ∧ (tbl.get ⟨j, h⟩).1.2 < 256 + 0 + j ∧
        (tbl.get ⟨j, h⟩).2 = 256 + 0 + j := by
    intro j h
    have := hWF j h
    refine ⟨by omega, by omega, by omega⟩
  obtain ⟨v, hv, hb, hOK, _⟩ := genLoop_ok tbl 0 baseVocab hkeys hbase hWF2
  exact ⟨v, hv, hb, hOK⟩

/-! The encode loop preserves the decoded byte sequence. -/

theorem decodeBytes_all_bytes (v : Vocab)
    (hbase : ∀ b, b < 256 → alGet v b = some [b]) :
    ∀ toks : List Nat, (∀ x ∈ toks, x < 256) → decodeBytes toks v = some toks := by
  intro toks
  induction toks with
  | nil => intro _; rfl
  | cons i rest ih =>
    intro h
    rw [decodeBytes_cons_some v i rest [i] (hbase i (h i (List.mem_cons_self _ _)))]
    rw [ih (fun x hx => h x (List.mem_cons_of_mem _ hx))]
    rfl

theorem encodeFuel_decodeBytes (v : Vocab) (ms : Merges)
    (hOK : ∀ e ∈ ms, entryOK v e) :
    ∀ (f : Nat) (toks out : List Nat), encodeFuel f toks ms = some out →
      decodeBytes out v = decodeBytes toks v := by
  intro f
  induction f with
  | zero => intro toks out h; cases h
  | succ g ih =>
    intro toks out h
    by_cases hlen : toks.length ≤ 1
    · rw [encodeFuel_small g toks ms hlen] at h
      obtain rfl : toks = out := by injection h
      rfl
    · cases hm : alGet ms (get_pair_with_lowest_value (get_stats toks) ms) with
      | none =>
        rw [encodeFuel_stop g toks ms hlen hm] at h
        obtain rfl : toks = out := by injection h
        rfl
      | some idx =>
        rw [encodeFuel_step g toks ms idx hlen hm] at h
        have hstep := ih _ out h
        rw [hstep]
        have hmem := alGet_mem ms _ _ hm
        obtain ⟨va, vb, hva, hvb, hvi⟩ := hOK _ hmem
        simp only at hva hvb hvi
        rw [merge_eq_mergeSpec]
        have := decodeBytes_mergeSpec v
          (get_pair_with_lowest_value (get_stats toks) ms).1
          (get_pair_with_lowest_value (get_stats toks) ms).2 idx va vb hva hvb
          hvi toks.length toks (le_refl _)
        rw [Prod.mk.eta] at this
        exact this

/-! Round trip: decoding the encoding recovers the input. -/

theorem encode_roundtrip (s corpus : List Nat) (vs : Nat) (tbl : Merges)
    (out : List Nat) (f : Nat) (hs : ValidString s)
    (hcorpus : ∀ x ∈ corpus, x < 256) (hvs : vs ≤ 65535)
    (htbl : calculate_merges corpus vs 256 = some tbl)
    (henc : encodeFuel f (convert_to_bytes s) tbl = some out) :
    ∃ v, generate_vocab tbl = some v ∧ decode out v = some s := by
  have h256 : 256 ≤ vs := by
    by_contra h
    simp [calculate_merges, checkedSubU16, h] at htbl
  obtain ⟨heq, hWF⟩ := calculate_merges_TableWF corpus vs 256 hcorpus
    (by omega) h256
  rw [htbl] at heq
  have heq2 : tbl = calcLoop 0 (vs - 256) corpus [] := Option.some.inj heq
  subst heq2
  obtain ⟨v, hv, hbase, hOK⟩ := generate_vocab_ok _ hWF
  refine ⟨v, hv, ?_⟩
  have hdb : decodeBytes (convert_to_bytes s) v = some (utf8Encode s) :=
    decodeBytes_all_bytes v hbase _ (utf8Encode_lt s hs)
  have hout : decodeBytes out v = some (utf8Encode s) := by
    rw [encodeFuel_decodeBytes v _ hOK f _ out henc]
    exact hdb
  unfold decode
  rw [hout]
  simp [utf8Lossy_utf8Encode s hs]

/-! Further helpers for the claim theorems. -/

theorem getMostFrequentPairOrd_unique (l : List ((Nat × Nat) × Nat))
    (p : Nat × Nat) (c : Nat) (hmem : (p, c) ∈ l) (hc : 2 ≤ c)
    (huniq : ∀ q d, (q, d) ∈ l → q ≠ p → d < c) :
    getMostFrequentPairOrd l = some p := by
  unfold getMostFrequentPairOrd
  cases hm : maxByCount l with
  | none =>
    rw [maxByCount_eq_none] at hm
    subst hm
    simp at hmem
  | some e =>
    obtain ⟨q0, c0⟩ := e
    have hmax := maxByCount_max l _ hm (p, c) hmem
    simp only at hmax
    have hq0 : q0 = p := by
      by_contra hne
      have h1 := huniq q0 c0 (maxByCount_mem l _ hm) hne
      omega
    subst hq0
    have h2 : ¬ c0 < 2 := by omega
    simp [h2]

theorem genLoop_append :
    ∀ (ms : Merges) (e : (Nat × Nat) × Nat) (w : Vocab),
      genLoop (ms ++ [e]) w =
        (genLoop ms w).bind fun v =>
          match alGet v e.1.1, alGet v e.1.2 with
          | some a, some b => some (alInsert v e.2 (a ++ b))
          | _, _ => none := by
  intro ms
  induction ms with
  | nil =>
    intro e w
    obtain ⟨⟨p0, p1⟩, idx⟩ := e
    cases h0 : alGet w p0 <;> cases h1 : alGet w p1 <;>
      simp [genLoop, h0, h1]
  | cons e0 rest ih =>
    intro e w
    obtain ⟨⟨q0, q1⟩, i0⟩ := e0
    cases h0 : alGet w q0 <;> cases h1 : alGet w q1 <;>
      simp [genLoop, h0, h1, ih]

theorem alInsert_length_le {α β : Type} [DecidableEq α] (l : List (α × β))
    (k : α) (v : β) : (alInsert l k v).length ≤ l.length + 1 := by
  induction l with
  | nil => simp [alInsert]
  | cons e rest ih =>
    obtain ⟨k0, v0⟩ := e
    by_cases h : k0 = k
    · simp [alInsert, h]
    · simp only [alInsert, if_neg h, List.length_cons]
      omega

theorem calcLoop_length_le :
    ∀ (n i : Nat) (ids : List Nat) (ms : Merges),
      (calcLoop i n ids ms).length ≤ ms.length + n := by
  intro n
  induction n with
  | zero => intro i ids ms; simp [calcLoop]
  | succ m ih =>
    intro i ids ms
    cases hg : get_most_frequent_pair ids with
    | none => simp only [calcLoop, hg]; omega
    | some p =>
      simp only [calcLoop, hg]
      have h1 := ih (i + 1) (merge ids p ((256 + i) % 65536))
        (alInsert ms p ((256 + i) % 65536))
      have h2 := alInsert_length_le ms p ((256 + i) % 65536)
      omega

theorem decodeBytes_isSome_iff (v : Vocab) :
    ∀ ids : List Nat,
      (decodeBytes ids v).isSome ↔ ∀ i ∈ ids, (alGet v i).isSome := by
  intro ids
  induction ids with
  | nil => simp [decodeBytes]
  | cons i rest ih =>
    cases hg : alGet v i with
    | none =>
      rw [decodeBytes_cons_none v i rest hg]
      simp [hg]
    | some p =>
      rw [decodeBytes_cons_some v i rest p hg]
      simp [hg, ih]

theorem decodeBytes_flatten (v : Vocab) :
    ∀ (ids : List Nat) (bs : List Nat), decodeBytes ids v = some bs →
      bs = (ids.map fun i => (alGet v i).getD []).flatten := by
  intro ids
  induction ids with
  | nil =>
    intro bs h
    simp only [decodeBytes] at h
    obtain rfl : ([] : List Nat) = bs := by injection h
    simp
  | cons i rest ih =>
    intro bs h
    cases hg : alGet v i with
    | none => rw [decodeBytes_cons_none v i rest hg] at h; cases h
    | some p =>
      rw [decodeBytes_cons_some v i rest p hg] at h
      cases hd : decodeBytes rest v with
      | none => rw [hd] at h; cases h
      | some tail =>
        rw [hd] at h
        simp at h
        rw [← h, ih tail hd]
        simp [hg]

/-! Claim theorems. -/

/-- C2: merge scans left to right, emitting the replacement identifier and
advancing two positions on a match, emitting the current element and advancing
one position on a mismatch; sequences shorter than 2 are returned unchanged;
and merge [101,32,101,32,101,32,101] (101,32) 256 = [256,256,256,101]. -/
theorem claim_C2_merge :
    (∀ (ids : List Nat) (pair : Nat × Nat) (idx : Nat),
      merge ids pair idx = mergeSpec pair idx ids) ∧
    (∀ (ids : List Nat) (pair : Nat × Nat) (idx : Nat), ids.length < 2 →
      merge ids pair idx = ids) ∧
    merge [101, 32, 101, 32, 101, 32, 101] (101, 32) 256 =
      [256, 256, 256, 101] := by
  refine ⟨merge_eq_mergeSpec, ?_, by decide⟩
  intro ids pair idx h
  simp [merge, h]

/-- Witness for C2 at a concrete short sequence. -/
theorem claim_C2_merge_witness :
    merge [7] (1, 2) 9 = mergeSpec (1, 2) 9 [7] ∧ merge [7] (1, 2) 9 = [7] :=
  ⟨claim_C2_merge.1 [7] (1, 2) 9, claim_C2_merge.2.1 [7] (1, 2) 9 (by decide)⟩

/-- C3 counterexample: with vocab_start 0 the first round still assigns
identifier 256, not vocab_start + 0 = 0; and on the initial sequence of six
copies of token 256 the second round reinserts the same pair, so the final
table holds the single identifier 257 — not dense from the start value. -/
theorem claim_C3_counterexample :
    calculate_merges [1, 1, 1] 1 0 = some [((1, 1), 256)] ∧
    calculate_merges [256, 256, 256, 256, 256, 256] 276 256 =
      some [((256, 256), 257)] := by
  exact ⟨by decide, by decide⟩

/-- C3 (amended): for every initial sequence of byte values (below 256) and
every vocab_size and vocab_start with vocab_start ≤ vocab_size and at most
65280 rounds requested, the i-th merge round assigns identifier 256 + i
(vocab_start only bounds the number of rounds) and appends the entry, so the
resulting identifiers are dense and strictly increasing starting at 256. -/
theorem claim_C3_amended (ids : List Nat) (vs vst : Nat) (h1 : vst ≤ vs)
    (h2 : vs - vst ≤ 65280) (h3 : ∀ x ∈ ids, x < 256) :
    ∃ t, calculate_merges ids vs vst = some t ∧
      t.map Prod.snd = List.range' 256 t.length := by
  refine ⟨calcLoop 0 (vs - vst) ids [], ?_, ?_⟩
  · simp [calculate_merges, checkedSubU16, h1]
  · exact TableWF_map_snd _ ((calculate_merges_TableWF ids vs vst h3 h2 h1).2)

/-- Witness for C3 (amended) on the aaabdaaabac corpus. -/
theorem claim_C3_amended_witness :
    ∃ t, calculate_merges [97, 97, 97, 98, 100, 97, 97, 97, 98, 97, 99] 276 256 =
        some t ∧ t.map Prod.snd = List.range' 256 t.length :=
  claim_C3_amended [97, 97, 97, 98, 100, 97, 97, 97, 98, 97, 99] 276 256
    (by decide) (by decide) (by decide)

/-- C4 counterexample: with the merge table holding only the rule
(0,0) to 256, the sequence [97, 98] has no adjacent pair in the table, yet the
encoder does not stop: the sentinel (0,0) is selected, it is a table key, the
merge is a no-op, and the loop never returns. -/
theorem claim_C4_counterexample :
    ((adjPairs [97, 98]).all
      fun p => (alGet ([((0, 0), 256)] : Merges) p).isNone) = true ∧
    get_pair_with_lowest_value (get_stats [97, 98]) [((0, 0), 256)] = (0, 0) ∧
    alGet ([((0, 0), 256)] : Merges) (0, 0) = some 256 ∧
    merge [97, 98] (0, 0) 256 = [97, 98] ∧
    encodeFuel 1000 [97, 98] [((0, 0), 256)] = none := by
  exact ⟨by decide, by decide, by decide, by decide, by decide⟩

/-- C4 (amended): each encoder round selects, among pairs present in the
statistics whose lookup succeeds, the pair with the strictly smallest
identifier (when that identifier is below 65535 and smaller than every other
candidate); the loop returns the tokens when at most one token remains, or
when the selected candidate — the sentinel (0,0) if no present pair is in the
table — is not a table key; otherwise it applies the merge and repeats. -/
theorem claim_C4_amended :
    (∀ (stats : List ((Nat × Nat) × Nat)) (tbl : Merges) (p : Nat × Nat)
      (c code : Nat), (p, c) ∈ stats → alGet tbl p = some code →
      code < 65535 →
      (∀ q d cq, (q, d) ∈ stats → alGet tbl q = some cq → q ≠ p → code < cq) →
      get_pair_with_lowest_value stats tbl = p) ∧
    (∀ (toks : List Nat) (tbl : Merges) (f : Nat), toks.length ≤ 1 →
      encodeFuel (f + 1) toks tbl = some toks) ∧
    (∀ (toks : List Nat) (tbl : Merges) (f : Nat), ¬ toks.length ≤ 1 →
      (∀ p ∈ adjPairs toks, alGet tbl p = none) → alGet tbl (0, 0) = none →
      encodeFuel (f + 1) toks tbl = some toks) ∧
    (∀ (toks : List Nat) (tbl : Merges) (f idx : Nat), ¬ toks.length ≤ 1 →
      alGet tbl (get_pair_with_lowest_value (get_stats toks) tbl) = some idx →
      encodeFuel (f + 1) toks tbl =
        encodeFuel f
          (merge toks (get_pair_with_lowest_value (get_stats toks) tbl) idx)
          tbl) := by
  refine ⟨?_, fun toks tbl f h => encodeFuel_small f toks tbl h, ?_, ?_⟩
  · intro stats tbl p c code hmem hget hlt huniq
    exact gplvLoop_min stats tbl 65535 (0, 0) p code hget hlt ⟨c, hmem⟩ huniq
  · intro toks tbl f hlen hnone h00
    have hz : get_pair_with_lowest_value (get_stats toks) tbl = (0, 0) := by
      apply gplvLoop_none
      intro q c hq
      exact hnone q (mem_get_stats_adj toks q c hq)
    exact encodeFuel_stop f toks tbl hlen (hz ▸ h00)
  · intro toks tbl f idx hlen hsome
    exact encodeFuel_step f toks tbl idx hlen hsome

/-- Witness for C4 (amended) at a concrete one-entry table. -/
theorem claim_C4_amended_witness :
    get_pair_with_lowest_value [((5, 6), 3)] [((5, 6), 700)] = (5, 6) := by
  apply claim_C4_amended.1 [((5, 6), 3)] [((5, 6), 700)] (5, 6) 3 700
    (by decide) (by decide) (by decide)
  intro q d cq hq hcq hne
  simp at hq
  exact absurd hq.1 hne

/-- C5 counterexample: two iteration orders of the same statistics — both
permutations of the statistics of [1,2,1,2,1] — select different pairs, so
tie-breaking follows the incidental mapping iteration order, not a fixed
total order over pairs. -/
theorem claim_C5_counterexample :
    getMostFrequentPairOrd [((1, 2), 2), ((2, 1), 2)] ≠
      getMostFrequentPairOrd [((2, 1), 2), ((1, 2), 2)] ∧
    List.Perm [((1, 2), 2), ((2, 1), 2)] [((2, 1), 2), ((1, 2), 2)] ∧
    get_stats [1, 2, 1, 2, 1] = [((1, 2), 2), ((2, 1), 2)] := by
  refine ⟨by decide, ?_, by decide⟩
  exact List.Perm.swap _ _ _

/-- C5 (amended): pair selection is independent of the mapping iteration
order exactly when the occurrence counts do not tie: if one pair strictly
dominates every other, every iteration order selects it; with ties the
selected pair follows the iteration order (the last maximal entry wins), so
two runs over identical input can produce different merge tables. -/
theorem claim_C5_amended (l1 l2 : List ((Nat × Nat) × Nat)) (p : Nat × Nat)
    (c : Nat) (hperm : l1.Perm l2) (hmem : (p, c) ∈ l1) (hc : 2 ≤ c)
    (huniq : ∀ q d, (q, d) ∈ l1 → q ≠ p → d < c) :
    getMostFrequentPairOrd l1 = some p ∧ getMostFrequentPairOrd l2 = some p := by
  refine ⟨getMostFrequentPairOrd_unique l1 p c hmem hc huniq, ?_⟩
  exact getMostFrequentPairOrd_unique l2 p c (hperm.mem_iff.1 hmem) hc
    (fun q d hq hne => huniq q d (hperm.mem_iff.2 hq) hne)

/-- Witness for C5 (amended) at a one-entry statistics list. -/
theorem claim_C5_amended_witness :
    getMostFrequentPairOrd [((3, 4), 5)] = some (3, 4) ∧
      getMostFrequentPairOrd [((3, 4), 5)] = some (3, 4) := by
  apply claim_C5_amended [((3, 4), 5)] [((3, 4), 5)] (3, 4) 5 (List.Perm.refl _)
    (by decide) (by decide)
  intro q d hq hne
  simp at hq
  exact absurd hq.1 hne

/-- C6: when no adjacent pair of the current sequence occurs at least twice
(including the empty statistics case) the training loop stops and returns
the table accumulated so far as a normal result; and training on the corpus
aaabdaaabac with vocab_size 276 and start 256 yields exactly 3 merge rules. -/
theorem claim_C6_exhaustion :
    (∀ (ids : List Nat) (n i : Nat) (ms : Merges),
      (∀ p, countPair ids p < 2) → calcLoop i n ids ms = ms) ∧
    (calculate_merges [97, 97, 97, 98, 100, 97, 97, 97, 98, 97, 99] 276 256).map
      List.length = some 3 := by
  constructor
  · intro ids n i ms h
    cases n with
    | zero => rfl
    | succ m => simp only [calcLoop, get_most_frequent_pair_none ids h]
  · decide

/-- Witness for C6 at a pairless sequence with a nonempty partial table. -/
theorem claim_C6_exhaustion_witness :
    calcLoop 0 5 [5] [((1, 2), 300)] = [((1, 2), 300)] :=
  claim_C6_exhaustion.1 [5] 5 0 [((1, 2), 300)] (fun p => by simp [countPair])

/-- C7: vocabulary construction starts from the 256-entry base mapping of
each identifier below 256 to its own single byte, and walks the merge table
in insertion order, binding each merged identifier to the concatenation of
the payloads of its two constituents; the empty table yields exactly the
base mapping. -/
theorem claim_C7_generate_vocab :
    generate_vocab [] = some ((List.range 256).map fun i => (i, [i])) ∧
    ∀ (ms : Merges) (p0 p1 idx : Nat),
      generate_vocab (ms ++ [((p0, p1), idx)]) =
        (generate_vocab ms).bind fun v =>
          match alGet v p0, alGet v p1 with
          | some a, some b => some (alInsert v idx (a ++ b))
          | _, _ => none := by
  constructor
  · rfl
  · intro ms p0 p1 idx
    exact genLoop_append ms ((p0, p1), idx) baseVocab

/-- C8: the encoder does not always terminate.  With the merge table holding
the rule (0,0) to 256 — learnable from a corpus of repeated NUL bytes — the
encode loop on input bytes [97, 98] makes no progress and runs forever, so no
fuel returns a result; the trainer, in contrast, performs at most
vocab_size - vocab_start iterations, the table never exceeding that size. -/
theorem claim_C8_encode_diverges :
    encodeDiverges [97, 98] [((0, 0), 256)] ∧
    ∀ (ids : List Nat) (n : Nat), (calcLoop 0 n ids []).length ≤ n := by
  constructor
  · exact encodeFuel_fix [97, 98] [((0, 0), 256)] (0, 0) 256 (by decide)
      (by decide) (by decide) (by decide)
  · intro ids n
    have := calcLoop_length_le n 0 ids []
    simpa using this

/-- C9: decode looks up each identifier in order and fails exactly when some
identifier is absent from the vocabulary — malformed UTF-8 in the gathered
bytes never causes a failure — and on success the gathered buffer is the
in-order concatenation of the payloads, read back with lossy UTF-8
interpretation. -/
theorem claim_C9_decode (ids : List Nat) (v : Vocab) :
    ((decode ids v).isSome ↔ ∀ i ∈ ids, (alGet v i).isSome) ∧
    ∀ bs, decodeBytes ids v = some bs →
      decode ids v = some (utf8Lossy bs) ∧
      bs = (ids.map fun i => (alGet v i).getD []).flatten := by
  constructor
  · have hx : (Option.map utf8Lossy (decodeBytes ids v)).isSome =
        (decodeBytes ids v).isSome := by
      cases decodeBytes ids v <;> rfl
    rw [decode, hx]
    exact decodeBytes_isSome_iff v ids
  · intro bs h
    refine ⟨?_, decodeBytes_flatten v ids bs h⟩
    rw [decode, h]
    rfl

/-- Witness for C9 at a vocabulary whose payload is not valid UTF-8. -/
theorem claim_C9_decode_witness :
    decode [0] [(0, [200])] = some (utf8Lossy [200]) ∧
      [200] = (([0] : List Nat).map
        fun i => (alGet ([(0, [200])] : Vocab) i).getD []).flatten :=
  (claim_C9_decode [0] [(0, [200])]).2 [200] (by decide)

/-- C10: training is total exactly when vocab_size is at least vocab_start:
the checked u16 subtraction num_merges = vocab_size - vocab_start is the only
failure point of the training entry, and every operation inside the loop is
total in the embedding. -/
theorem claim_C10_total (ids : List Nat) (vs vst : Nat) :
    (calculate_merges ids vs vst).isSome ↔ vst ≤ vs := by
  unfold calculate_merges checkedSubU16
  by_cases h : vst ≤ vs <;> simp [h]

/-- Witness for C10 at concrete parameters on both sides of the guard. -/
theorem claim_C10_total_witness :
    ((calculate_merges [1, 1, 1] 300 256).isSome ↔ (256 : Nat) ≤ 300) ∧
      ((calculate_merges [1, 1, 1] 10 256).isSome ↔ (256 : Nat) ≤ 10) :=
  ⟨claim_C10_total [1, 1, 1] 300 256, claim_C10_total [1, 1, 1] 10 256⟩

/-- C1 counterexample: the corpus of eight NUL bytes followed by the bytes of
the string ab contains every byte and adjacent pair of the input ab, the
trained table is ((0,0), 256), ((256,256), 257), and the encode loop on the
bytes of ab never returns, so decoding the encoding cannot yield the input. -/
theorem claim_C1_counterexample :
    calculate_merges [0, 0, 0, 0, 0, 0, 0, 0, 97, 98] 258 256 =
      some [((0, 0), 256), ((256, 256), 257)] ∧
    ([97, 98].all ([0, 0, 0, 0, 0, 0, 0, 0, 97, 98].contains ·)) = true ∧
    ((adjPairs (convert_to_bytes [97, 98])).all
      ((adjPairs [0, 0, 0, 0, 0, 0, 0, 0, 97, 98]).contains ·)) = true ∧
    encodeDiverges (convert_to_bytes [97, 98])
      [((0, 0), 256), ((256, 256), 257)] := by
  refine ⟨by decide, by decide, by decide, ?_⟩
  have hcb : convert_to_bytes [97, 98] = [97, 98] := by decide
  rw [hcb]
  exact encodeFuel_fix [97, 98] [((0, 0), 256), ((256, 256), 257)] (0, 0) 256
    (by decide) (by decide) (by decide) (by decide)

/-- C1 (amended): for every valid Unicode string s, every byte-valued corpus
and every vocab_size at most 65535, if the table is trained with start 256
and the encode loop returns within some fuel, then the vocabulary derived
from the table decodes the encoding back to s exactly; the corpus need not
cover the bytes or pairs of s, but when the loop diverges — possible when the
pair (0,0) was learned — no result exists at all. -/
theorem claim_C1_amended (s corpus : List Nat) (vs : Nat) (tbl : Merges)
    (out : List Nat) (f : Nat) (hs : ValidString s)
    (hcorpus : ∀ x ∈ corpus, x < 256) (hvs : vs ≤ 65535)
    (htbl : calculate_merges corpus vs 256 = some tbl)
    (henc : encodeFuel f (convert_to_bytes s) tbl = some out) :
    ∃ v, generate_vocab tbl = some v ∧ decode out v = some s :=
  encode_roundtrip s corpus vs tbl out f hs hcorpus hvs htbl henc

/-- Witness for C1 (amended) at a one-character input and a small corpus. -/
theorem claim_C1_amended_witness :
    ∃ v, generate_vocab [((97, 97), 256)] = some v ∧
      decode [104] v = some [104] :=
  claim_C1_amended [104] [97, 97, 97, 97] 258 [((97, 97), 256)] [104] 1
    (by decide) (by decide) (by decide) (by decide) (by decide)

end BPE
